import Mathlib

/-!
Verification of the asynchronous thumbnail pipeline of PixSort
(`src/image_sorter.py`): cache key derivation, cache cleanup, the
per-image worker, the worker-pool sizing, and the completion-polling
state machine, each embedded shallowly and checked against the
documented behaviour.
-/

namespace PixSort

/-! ### Cache Key Deriver (`_cache_key`)

`_cache_key(abs_path, mtime, file_size)` builds the string
`f"{abs_path}|{mtime}|{file_size}"` and returns its SHA-256 hex digest.
The decimal rendering of a number (Python `str`) is modelled by
`natStr`; the digest itself is kept as a parameter of the embedding,
assumed collision-free. Modification times are modelled as natural
number timestamps. -/

/-- Decimal rendering of a natural number, most significant digit first,
with `"0"` for zero — the character list of Python `str(n)`. -/
def natStr (n : Nat) : List Char :=
  if n = 0 then ['0'] else ((Nat.digits 10 n).map Nat.digitChar).reverse

/-- Python `str(n)` as a Lean string. -/
def pyStr (n : Nat) : String :=
  ⟨natStr n⟩

/-- Pre-digest payload of `_cache_key`: `f"{abs_path}|{mtime}|{file_size}"`. -/
def rawKey (absPath : String) (mtime fileSize : Nat) : String :=
  absPath ++ "|" ++ pyStr mtime ++ "|" ++ pyStr fileSize

/-- Translation of `_cache_key`: the digest of the `rawKey` payload, with the
SHA-256 hex digest kept as the parameter `sha256hex`. -/
def cacheKey (sha256hex : String → String) (absPath : String) (mtime fileSize : Nat) : String :=
  sha256hex (rawKey absPath mtime fileSize)

theorem digitChar_ne_bar : ∀ d : Nat, d < 10 → Nat.digitChar d ≠ '|' := by
  decide

theorem digitChar_inj_lt :
    ∀ a : Nat, a < 10 → ∀ b : Nat, b < 10 → Nat.digitChar a = Nat.digitChar b → a = b := by
  decide

theorem bar_not_mem_natStr (n : Nat) : '|' ∉ natStr n := by
  unfold natStr
  split
  · decide
  · intro hmem
    rw [List.mem_reverse, List.mem_map] at hmem
    obtain ⟨d, hd, hchar⟩ := hmem
    exact digitChar_ne_bar d (Nat.digits_lt_base (by omega) hd) hchar

theorem map_digitChar_inj (l₁ l₂ : List Nat)
    (h₁ : ∀ d ∈ l₁, d < 10) (h₂ : ∀ d ∈ l₂, d < 10)
    (heq : l₁.map Nat.digitChar = l₂.map Nat.digitChar) : l₁ = l₂ := by
  induction l₁ generalizing l₂ with
  | nil => cases l₂ <;> simp_all
  | cons a t ih =>
    cases l₂ with
    | nil => simp_all
    | cons b t₂ =>
      simp only [List.map_cons, List.cons.injEq] at heq
      have ha : a = b :=
        digitChar_inj_lt a (h₁ a (by simp)) b (h₂ b (by simp)) heq.1
      have ht : t = t₂ :=
        ih t₂ (fun d hd => h₁ d (List.mem_cons_of_mem _ hd))
          (fun d hd => h₂ d (List.mem_cons_of_mem _ hd)) heq.2
      simp [ha, ht]

theorem natStr_ne_zero_case (n : Nat) (hn : n ≠ 0) :
    ((Nat.digits 10 n).map Nat.digitChar).reverse ≠ ['0'] := by
  intro h
  have hmap : (Nat.digits 10 n).map Nat.digitChar = ['0'] := by
    have := congrArg List.reverse h
    simpa using this
  have hdig : Nat.digits 10 n = [0] := by
    cases hd : Nat.digits 10 n with
    | nil => simp [hd] at hmap
    | cons a t =>
      rw [hd] at hmap
      cases t with
      | nil =>
        simp only [List.map_cons, List.map_nil, List.cons.injEq, and_true] at hmap
        have hmem : a ∈ Nat.digits 10 n := by simp [hd]
        have ha : a < 10 := Nat.digits_lt_base (by omega) hmem
        have hchar : Nat.digitChar a = Nat.digitChar 0 := hmap
        have : a = 0 := digitChar_inj_lt a ha 0 (by omega) hchar
        simp [this]
      | cons b t₂ => simp at hmap
  have hzero : n = 0 := by
    have := Nat.ofDigits_digits 10 n
    rw [hdig] at this
    simpa [Nat.ofDigits] using this.symm
  exact hn hzero

theorem natStr_inj (m n : Nat) (h : natStr m = natStr n) : m = n := by
  unfold natStr at h
  by_cases hm : m = 0 <;> by_cases hn : n = 0
  · omega
  · rw [if_pos hm, if_neg hn] at h
    exact absurd h.symm (natStr_ne_zero_case n hn)
  · rw [if_neg hm, if_pos hn] at h
    exact absurd h (natStr_ne_zero_case m hm)
  · rw [if_neg hm, if_neg hn] at h
    have hmap := List.reverse_injective h
    have hdig : Nat.digits 10 m = Nat.digits 10 n :=
      map_digitChar_inj _ _ (fun d hd => Nat.digits_lt_base (by omega) hd)
        (fun d hd => Nat.digits_lt_base (by omega) hd) hmap
    exact Nat.digits_inj_iff.mp hdig

theorem append_sep_inj (sep : Char) :
    ∀ (xs ys as bs : List Char), sep ∉ xs → sep ∉ ys →
      xs ++ sep :: as = ys ++ sep :: bs → xs = ys ∧ as = bs := by
  intro xs
  induction xs with
  | nil =>
    intro ys as bs _ hy heq
    cases ys with
    | nil => simpa using heq
    | cons y t =>
      simp only [List.nil_append, List.cons_append, List.cons.injEq] at heq
      exact absurd heq.1.symm (by simp_all)
  | cons x t ih =>
    intro ys as bs hx hy heq
    cases ys with
    | nil =>
      simp only [List.cons_append, List.nil_append, List.cons.injEq] at heq
      exact absurd heq.1 (by simp_all)
    | cons y t₂ =>
      simp only [List.cons_append, List.cons.injEq] at heq
      obtain ⟨h1, h2⟩ := ih t₂ as bs (by simp_all) (by simp_all) heq.2
      exact ⟨by simp [heq.1, h1], h2⟩

theorem rawKey_inj (a a' : String) (m m' s s' : Nat)
    (h : rawKey a m s = rawKey a' m' s') : a = a' ∧ m = m' ∧ s = s' := by
  have hdata : a.data ++ '|' :: (natStr m ++ '|' :: natStr s)
      = a'.data ++ '|' :: (natStr m' ++ '|' :: natStr s') := by
    have := congrArg String.data h
    simpa [rawKey, pyStr, String.data_append] using this
  have hrev : (natStr s).reverse ++ '|' :: ((natStr m).reverse ++ '|' :: a.data.reverse)
      = (natStr s').reverse ++ '|' :: ((natStr m').reverse ++ '|' :: a'.data.reverse) := by
    have h₀ := congrArg List.reverse hdata
    simp only [List.reverse_append, List.reverse_cons, List.append_assoc,
      List.singleton_append, List.cons_append, List.nil_append] at h₀
    exact h₀
  obtain ⟨hs, hrest⟩ :=
    append_sep_inj '|' _ _ _ _ (by simpa using bar_not_mem_natStr s)
      (by simpa using bar_not_mem_natStr s') hrev
  obtain ⟨hm, hpath⟩ :=
    append_sep_inj '|' _ _ _ _ (by simpa using bar_not_mem_natStr m)
      (by simpa using bar_not_mem_natStr m') hrest
  refine ⟨?_, ?_, ?_⟩
  · exact String.ext (List.reverse_injective hpath)
  · exact natStr_inj _ _ (List.reverse_injective hm)
  · exact natStr_inj _ _ (List.reverse_injective hs)

/-- C2: `_cache_key` is a pure deterministic function of
(absolute path, modification time, byte size): two input triples are mapped
to the same identity exactly when they are equal componentwise, assuming the
SHA-256 hex digest is collision-free (injective). The left-to-right direction
is the distinctness guarantee, the right-to-left direction is determinism. -/
theorem cacheKey_deterministic_distinct (sha256hex : String → String)
    (hinj : Function.Injective sha256hex)
    (a a' : String) (m m' s s' : Nat) :
    cacheKey sha256hex a m s = cacheKey sha256hex a' m' s' ↔
      (a = a' ∧ m = m' ∧ s = s') := by
  constructor
  · intro h
    exact rawKey_inj a a' m m' s s' (hinj h)
  · rintro ⟨rfl, rfl, rfl⟩
    rfl

/-- Concrete instantiation of `cacheKey_deterministic_distinct` with the
identity digest on two explicit triples. -/
theorem cacheKey_deterministic_distinct_witness :
    (cacheKey id "/pics/a.png" 1700000000 4096 = cacheKey id "/pics/b.png" 1700000000 4096 ↔
      ("/pics/a.png" = "/pics/b.png" ∧ (1700000000 : Nat) = 1700000000 ∧ (4096 : Nat) = 4096)) :=
  cacheKey_deterministic_distinct id (fun _ _ h => h) "/pics/a.png" "/pics/b.png"
    1700000000 1700000000 4096 4096

/-! ### Cache Janitor (`_cleanup_cache`)

`_cleanup_cache(cache_dir, max_bytes)` lists the directory, keeps only
names ending in `".jpg"`, sums their sizes, and if the sum exceeds the
budget sorts them by modification time ascending (a stable sort, like
Python `list.sort`) and deletes oldest-first until the running total is
at or under the budget. A directory entry is modelled by its name, byte
size and modification time; deletion removes the entries with the
deleted names from the directory listing. -/

structure CacheFile where
  name : String
  size : Nat
  mtime : Nat
deriving DecidableEq, Repr

/-- Python `s.endswith(t)`. -/
def pyEndsWith (s t : String) : Bool :=
  t.data.isSuffixOf s.data

/-- Directory entries `_cleanup_cache` considers: names ending in `".jpg"`. -/
def jpgFiles (dir : List CacheFile) : List CacheFile :=
  dir.filter (fun f => pyEndsWith f.name ".jpg")

/-- Total byte size of a list of entries. -/
def sizeSum (l : List CacheFile) : Nat :=
  (l.map CacheFile.size).sum

/-- Python `files.sort(key=lambda x: x[2])`: stable sort by mtime ascending. -/
def sortByMtime (l : List CacheFile) : List CacheFile :=
  l.mergeSort (fun a b => decide (a.mtime ≤ b.mtime))

/-- Deletion loop of `_cleanup_cache`: walk the mtime-sorted entries, stop as
soon as the running total is at or under the budget, otherwise delete the
entry and subtract its size. Returns (deleted entries, surviving entries). -/
def deleteOldest : List CacheFile → Nat → Nat → List CacheFile × List CacheFile
  | [], _, _ => ([], [])
  | f :: fs, total, maxBytes =>
    if total ≤ maxBytes then ([], f :: fs)
    else
      let p := deleteOldest fs (total - f.size) maxBytes
      (f :: p.1, p.2)

/-- Entries `_cleanup_cache` deletes for a given directory state. -/
def deletedFiles (dir : List CacheFile) (maxBytes : Nat) : List CacheFile :=
  (deleteOldest (sortByMtime (jpgFiles dir)) (sizeSum (jpgFiles dir)) maxBytes).1

/-- Translation of `_cleanup_cache`: returns the directory state after the
janitor ran (deletions are modelled as always succeeding). -/
def cleanupCache (dir : List CacheFile) (maxBytes : Nat) : List CacheFile :=
  if sizeSum (jpgFiles dir) ≤ maxBytes then dir
  else
    dir.filter (fun f => !decide (f.name ∈ (deletedFiles dir maxBytes).map CacheFile.name))

theorem cleanupCache_over (dir : List CacheFile) (maxBytes : Nat)
    (hle : ¬ sizeSum (jpgFiles dir) ≤ maxBytes) :
    cleanupCache dir maxBytes =
      dir.filter (fun f => !decide (f.name ∈ (deletedFiles dir maxBytes).map CacheFile.name)) := by
  unfold cleanupCache
  rw [if_neg hle]

theorem deleteOldest_append (l : List CacheFile) (total maxBytes : Nat) :
    (deleteOldest l total maxBytes).1 ++ (deleteOldest l total maxBytes).2 = l := by
  induction l generalizing total with
  | nil => simp [deleteOldest]
  | cons f fs ih =>
    unfold deleteOldest
    split
    · simp
    · simpa using ih (total - f.size)

theorem deleteOldest_sizeSum (l : List CacheFile) (total maxBytes : Nat)
    (htot : total = sizeSum l) :
    sizeSum (deleteOldest l total maxBytes).2 ≤ maxBytes := by
  induction l generalizing total with
  | nil => simp [deleteOldest, sizeSum]
  | cons f fs ih =>
    unfold deleteOldest
    split
    · next h => exact htot ▸ h
    · exact ih (total - f.size) (by simp [sizeSum, List.map_cons, List.sum_cons] at htot ⊢; omega)

theorem sizeSum_perm {l₁ l₂ : List CacheFile} (h : l₁.Perm l₂) : sizeSum l₁ = sizeSum l₂ :=
  (h.map CacheFile.size).sum_eq

theorem jpg_names_nodup {dir : List CacheFile}
    (hnd : (dir.map CacheFile.name).Nodup) : ((jpgFiles dir).map CacheFile.name).Nodup :=
  ((List.filter_sublist dir).map CacheFile.name).nodup hnd

theorem deletedFiles_jpg (dir : List CacheFile) (maxBytes : Nat) :
    ∀ g ∈ deletedFiles dir maxBytes, pyEndsWith g.name ".jpg" = true := by
  intro g hg
  have hgS : g ∈ sortByMtime (jpgFiles dir) := by
    rw [← deleteOldest_append (sortByMtime (jpgFiles dir)) (sizeSum (jpgFiles dir)) maxBytes]
    exact List.mem_append_left _ hg
  have hgJ : g ∈ jpgFiles dir := (List.mergeSort_perm _ _).mem_iff.mp hgS
  exact (List.mem_filter.mp hgJ).2

/-- C3: the janitor is a no-op at or under budget; over budget, the surviving
cache entries total at most `maxBytes` and the deleted entries are an initial
segment of the entries sorted by modification time ascending (oldest first).
Directory listings have pairwise-distinct file names. -/
theorem cleanupCache_budget (dir : List CacheFile) (maxBytes : Nat)
    (hnd : (dir.map CacheFile.name).Nodup) :
    (sizeSum (jpgFiles dir) ≤ maxBytes → cleanupCache dir maxBytes = dir) ∧
    sizeSum (jpgFiles (cleanupCache dir maxBytes)) ≤ maxBytes ∧
    ∃ kept, deletedFiles dir maxBytes ++ kept = sortByMtime (jpgFiles dir) := by
  refine ⟨fun hle => by simp [cleanupCache, hle], ?_, ?_⟩
  · by_cases hle : sizeSum (jpgFiles dir) ≤ maxBytes
    · simp [cleanupCache, hle]
    · have hperm : (sortByMtime (jpgFiles dir)).Perm (jpgFiles dir) :=
        List.mergeSort_perm _ _
      have hTS : sizeSum (jpgFiles dir) = sizeSum (sortByMtime (jpgFiles dir)) :=
        (sizeSum_perm hperm).symm
      set S := sortByMtime (jpgFiles dir) with hSdef
      set D := (deleteOldest S (sizeSum (jpgFiles dir)) maxBytes).1 with hDdef
      set R := (deleteOldest S (sizeSum (jpgFiles dir)) maxBytes).2 with hRdef
      have hDR : D ++ R = S := deleteOldest_append _ _ _
      have hRsum : sizeSum R ≤ maxBytes := deleteOldest_sizeSum _ _ _ hTS
      have hSnd : (S.map CacheFile.name).Nodup :=
        ((hperm.map CacheFile.name).nodup_iff).mpr (jpg_names_nodup hnd)
      have hdisj : (D.map CacheFile.name).Disjoint (R.map CacheFile.name) := by
        apply List.disjoint_of_nodup_append
        rw [← List.map_append, hDR]
        exact hSnd
      rw [cleanupCache_over dir maxBytes hle]
      have hDnames : (deletedFiles dir maxBytes).map CacheFile.name = D.map CacheFile.name := by
        rw [hDdef]; rfl
      rw [hDnames]
      have hjf : jpgFiles (dir.filter (fun f => !decide (f.name ∈ D.map CacheFile.name))) =
          (jpgFiles dir).filter (fun f => !decide (f.name ∈ D.map CacheFile.name)) := by
        unfold jpgFiles
        rw [List.filter_filter, List.filter_filter]
        exact List.filter_congr (fun f _ => Bool.and_comm _ _)
      rw [hjf]
      have hpermf : ((jpgFiles dir).filter
            (fun f => !decide (f.name ∈ D.map CacheFile.name))).Perm
          (S.filter (fun f => !decide (f.name ∈ D.map CacheFile.name))) :=
        (hperm.filter _).symm
      rw [sizeSum_perm hpermf, ← hDR, List.filter_append]
      have hDnil : D.filter (fun f => !decide (f.name ∈ D.map CacheFile.name)) = [] := by
        rw [List.filter_eq_nil_iff]
        intro f hf
        simp only [Bool.not_eq_true', decide_eq_false_iff_not, not_not]
        exact List.mem_map_of_mem _ hf
      have hRall : R.filter (fun f => !decide (f.name ∈ D.map CacheFile.name)) = R := by
        rw [List.filter_eq_self]
        intro f hf
        simp only [Bool.not_eq_true', decide_eq_false_iff_not]
        exact fun hmem => hdisj hmem (List.mem_map_of_mem _ hf)
      rw [hDnil, hRall]
      simpa using hRsum
  · exact ⟨(deleteOldest (sortByMtime (jpgFiles dir)) (sizeSum (jpgFiles dir)) maxBytes).2,
      deleteOldest_append _ _ _⟩

/-- Concrete instantiation of `cleanupCache_budget`: three cache files of
sizes 5, 6, 7 against a 10-byte budget. -/
theorem cleanupCache_budget_witness :
    ((sizeSum (jpgFiles [⟨"a.jpg", 5, 1⟩, ⟨"b.jpg", 6, 2⟩, ⟨"c.jpg", 7, 3⟩]) ≤ 10 →
        cleanupCache [⟨"a.jpg", 5, 1⟩, ⟨"b.jpg", 6, 2⟩, ⟨"c.jpg", 7, 3⟩] 10 =
          [⟨"a.jpg", 5, 1⟩, ⟨"b.jpg", 6, 2⟩, ⟨"c.jpg", 7, 3⟩]) ∧
      sizeSum (jpgFiles (cleanupCache [⟨"a.jpg", 5, 1⟩, ⟨"b.jpg", 6, 2⟩, ⟨"c.jpg", 7, 3⟩] 10)) ≤ 10 ∧
      ∃ kept, deletedFiles [⟨"a.jpg", 5, 1⟩, ⟨"b.jpg", 6, 2⟩, ⟨"c.jpg", 7, 3⟩] 10 ++ kept =
        sortByMtime (jpgFiles [⟨"a.jpg", 5, 1⟩, ⟨"b.jpg", 6, 2⟩, ⟨"c.jpg", 7, 3⟩])) :=
  cleanupCache_budget [⟨"a.jpg", 5, 1⟩, ⟨"b.jpg", 6, 2⟩, ⟨"c.jpg", 7, 3⟩] 10 (by decide)

/-- C10: the janitor only touches `".jpg"` entries. A non-`".jpg"` file plays
no part in the budget comparison (appending it changes nothing about what is
deleted) and survives cleanup unchanged, and the non-`".jpg"` portion of any
directory is preserved verbatim. -/
theorem cleanupCache_ignores_nonjpg (dir : List CacheFile) (f : CacheFile) (maxBytes : Nat)
    (hf : pyEndsWith f.name ".jpg" = false) :
    cleanupCache (dir ++ [f]) maxBytes = cleanupCache dir maxBytes ++ [f] ∧
    (cleanupCache dir maxBytes).filter (fun g => !pyEndsWith g.name ".jpg") =
      dir.filter (fun g => !pyEndsWith g.name ".jpg") := by
  have hjpg : jpgFiles (dir ++ [f]) = jpgFiles dir := by
    unfold jpgFiles
    rw [List.filter_append]
    simp [hf]
  have hfnot : ∀ g ∈ deletedFiles dir maxBytes, g.name ≠ f.name := by
    intro g hg heq
    have h1 := deletedFiles_jpg dir maxBytes g hg
    rw [heq] at h1
    simp [h1] at hf
  constructor
  · by_cases hle : sizeSum (jpgFiles dir) ≤ maxBytes
    · simp [cleanupCache, hjpg, hle]
    · have hle2 : ¬ sizeSum (jpgFiles (dir ++ [f])) ≤ maxBytes := by rw [hjpg]; exact hle
      have hdf : deletedFiles (dir ++ [f]) maxBytes = deletedFiles dir maxBytes := by
        unfold deletedFiles
        rw [hjpg]
      rw [cleanupCache_over _ _ hle2, cleanupCache_over _ _ hle, hdf, List.filter_append]
      have hfkeep : [f].filter
          (fun g => !decide (g.name ∈ (deletedFiles dir maxBytes).map CacheFile.name)) = [f] := by
        rw [List.filter_eq_self]
        intro g hg
        rw [List.mem_singleton] at hg
        subst hg
        simp only [Bool.not_eq_true', decide_eq_false_iff_not]
        intro hmem
        obtain ⟨d, hd, hdn⟩ := List.mem_map.mp hmem
        exact hfnot d hd hdn
      rw [hfkeep]
  · by_cases hle : sizeSum (jpgFiles dir) ≤ maxBytes
    · simp [cleanupCache, hle]
    · rw [cleanupCache_over _ _ hle, List.filter_filter]
      refine List.filter_congr ?_
      intro g _
      by_cases hg : pyEndsWith g.name ".jpg" = true
      · simp [hg]
      · rw [Bool.not_eq_true] at hg
        have hgnot : ¬ g.name ∈ (deletedFiles dir maxBytes).map CacheFile.name := by
          intro hmem
          obtain ⟨d, hd, hdn⟩ := List.mem_map.mp hmem
          have := deletedFiles_jpg dir maxBytes d hd
          rw [hdn, hg] at this
          exact Bool.false_ne_true this
        simp [hg, hgnot]

/-- Concrete instantiation of `cleanupCache_ignores_nonjpg`: a `README.txt`
appended to an over-budget cache directory is untouched. -/
theorem cleanupCache_ignores_nonjpg_witness :
    (cleanupCache ([⟨"a.jpg", 5, 1⟩, ⟨"b.jpg", 6, 2⟩, ⟨"c.jpg", 7, 3⟩] ++ [⟨"README.txt", 9, 0⟩]) 10 =
      cleanupCache [⟨"a.jpg", 5, 1⟩, ⟨"b.jpg", 6, 2⟩, ⟨"c.jpg", 7, 3⟩] 10 ++ [⟨"README.txt", 9, 0⟩]) ∧
    (cleanupCache [⟨"a.jpg", 5, 1⟩, ⟨"b.jpg", 6, 2⟩, ⟨"c.jpg", 7, 3⟩] 10).filter
        (fun g => !pyEndsWith g.name ".jpg") =
      [⟨"a.jpg", 5, 1⟩, ⟨"b.jpg", 6, 2⟩, ⟨"c.jpg", 7, 3⟩].filter (fun g => !pyEndsWith g.name ".jpg") :=
  cleanupCache_ignores_nonjpg [⟨"a.jpg", 5, 1⟩, ⟨"b.jpg", 6, 2⟩, ⟨"c.jpg", 7, 3⟩]
    ⟨"README.txt", 9, 0⟩ 10 (by decide)

/-! ### Thumbnail Producer (`_process_image_worker`)

`_process_image_worker(path, thumb_sizes, cache_dir)` walks the requested
sizes in order. For each size it first consults the cache (only when the
initial `os.stat` succeeded and produced a key); on a miss it lazily decodes
the source image once (`source_img` goes from unset to either a loaded image
or a failure flag), then either appends a resized copy (writing it back to
the cache when a key exists) or, after a decode failure, a solid-gray
`size`×`size` placeholder. The embedding keeps the environment abstract:
`statOk` is whether `os.stat` succeeded, `cacheHit sz` whether the cache has
an entry for this file at size `sz`, `decodeOk` whether `Image.open` on the
source succeeds. Alongside the produced previews the embedding records how
often the source was decoded and which sizes were written back to the
cache. -/

/-- Preview produced for one requested size: the cached image for that size,
a fresh resize of the decoded source bounded to `size`×`size`, or the
solid-gray `size`×`size` placeholder made after a decode failure. -/
inductive Thumb where
  | cached (size : Nat)
  | resized (size : Nat)
  | placeholder (size : Nat)
deriving DecidableEq, Repr

/-- Requested size a preview was produced for. -/
def Thumb.sizeFor : Thumb → Nat
  | .cached sz => sz
  | .resized sz => sz
  | .placeholder sz => sz

/-- Test for the placeholder previews. -/
def Thumb.isPlaceholderImg : Thumb → Bool
  | .placeholder _ => true
  | _ => false

/-- Result of one worker invocation: the previews in request order, the
number of times the source file was decoded, and the sizes written back to
the cache. -/
structure WorkerResult where
  images : List Thumb
  decodeTries : Nat
  cacheWrites : List Nat
deriving DecidableEq, Repr

/-- Loop of `_process_image_worker` over the requested sizes. `srcImg` is the
`source_img` variable: `none` before any decode attempt, `some true` after a
successful decode, `some false` after a failed one. -/
def workerLoop (statOk : Bool) (cacheHit : Nat → Bool) (decodeOk : Bool) :
    List Nat → Option Bool → WorkerResult
  | [], _ => ⟨[], 0, []⟩
  | sz :: rest, srcImg =>
    if statOk && cacheHit sz then
      let r := workerLoop statOk cacheHit decodeOk rest srcImg
      ⟨Thumb.cached sz :: r.images, r.decodeTries, r.cacheWrites⟩
    else
      match srcImg with
      | none =>
        if decodeOk then
          let r := workerLoop statOk cacheHit decodeOk rest (some true)
          ⟨Thumb.resized sz :: r.images, r.decodeTries + 1,
            (if statOk then [sz] else []) ++ r.cacheWrites⟩
        else
          let r := workerLoop statOk cacheHit decodeOk rest (some false)
          ⟨Thumb.placeholder sz :: r.images, r.decodeTries + 1, r.cacheWrites⟩
      | some true =>
        let r := workerLoop statOk cacheHit decodeOk rest (some true)
        ⟨Thumb.resized sz :: r.images, r.decodeTries,
          (if statOk then [sz] else []) ++ r.cacheWrites⟩
      | some false =>
        let r := workerLoop statOk cacheHit decodeOk rest (some false)
        ⟨Thumb.placeholder sz :: r.images, r.decodeTries, r.cacheWrites⟩

/-- Translation of `_process_image_worker`: run the loop with the source not
yet decoded. -/
def processImageWorker (statOk : Bool) (cacheHit : Nat → Bool) (decodeOk : Bool)
    (thumbSizes : List Nat) : WorkerResult :=
  workerLoop statOk cacheHit decodeOk thumbSizes none

theorem workerLoop_images_sizeFor (statOk : Bool) (cacheHit : Nat → Bool) (decodeOk : Bool)
    (sizes : List Nat) (srcImg : Option Bool) :
    (workerLoop statOk cacheHit decodeOk sizes srcImg).images.map Thumb.sizeFor = sizes := by
  induction sizes generalizing srcImg with
  | nil => rfl
  | cons sz rest ih =>
    unfold workerLoop
    split
    · simp [Thumb.sizeFor, ih]
    · match srcImg with
      | none => cases decodeOk <;> simp [Thumb.sizeFor, ih]
      | some true => simp [Thumb.sizeFor, ih]
      | some false => simp [Thumb.sizeFor, ih]

/-- C7: the worker returns exactly one preview per requested size, in request
order — the list of sizes the previews were produced for equals the requested
size list, whether each size was a cache hit, a fresh resize, or a
placeholder. -/
theorem processImageWorker_one_per_size (statOk : Bool) (cacheHit : Nat → Bool)
    (decodeOk : Bool) (thumbSizes : List Nat) :
    (processImageWorker statOk cacheHit decodeOk thumbSizes).images.map Thumb.sizeFor
      = thumbSizes :=
  workerLoop_images_sizeFor statOk cacheHit decodeOk thumbSizes none

theorem workerLoop_no_decode (statOk : Bool) (cacheHit : Nat → Bool) (decodeOk : Bool)
    (sizes : List Nat) (b : Bool) :
    (workerLoop statOk cacheHit decodeOk sizes (some b)).decodeTries = 0 := by
  induction sizes with
  | nil => rfl
  | cons sz rest ih =>
    unfold workerLoop
    split
    · simpa using ih
    · cases b <;> simpa using ih

/-- C5: one worker invocation decodes the source at most once, and decodes it
exactly zero times precisely when every requested size is a cache hit (which
requires the initial `os.stat` to have succeeded) — decoding is deferred
until the first cache miss, so an all-cache-hit job never reads the source
pixels. -/
theorem processImageWorker_decode_once (statOk : Bool) (cacheHit : Nat → Bool)
    (decodeOk : Bool) (thumbSizes : List Nat) :
    (processImageWorker statOk cacheHit decodeOk thumbSizes).decodeTries ≤ 1 ∧
    ((processImageWorker statOk cacheHit decodeOk thumbSizes).decodeTries = 0 ↔
      ∀ sz ∈ thumbSizes, (statOk && cacheHit sz) = true) := by
  unfold processImageWorker
  induction thumbSizes with
  | nil => simp [workerLoop]
  | cons sz rest ih =>
    unfold workerLoop
    split
    · next hhit =>
      refine ⟨by simpa using ih.1, ?_⟩
      rw [List.forall_mem_cons]
      simpa [hhit] using ih.2
    · next hmiss =>
      cases decodeOk with
      | true =>
        simp [workerLoop_no_decode, List.forall_mem_cons]
        intro h1 h2
        exact absurd (by simp [h1, h2]) hmiss
      | false =>
        simp [workerLoop_no_decode, List.forall_mem_cons]
        intro h1 h2
        exact absurd (by simp [h1, h2]) hmiss

theorem workerLoop_decode_failed (statOk : Bool) (cacheHit : Nat → Bool)
    (sizes : List Nat) (srcImg : Option Bool) (hsrc : srcImg ≠ some true) :
    (workerLoop statOk cacheHit false sizes srcImg).images =
      sizes.map (fun sz =>
        if statOk && cacheHit sz then Thumb.cached sz else Thumb.placeholder sz) := by
  induction sizes generalizing srcImg with
  | nil => rfl
  | cons sz rest ih =>
    unfold workerLoop
    split
    · next hhit =>
      show Thumb.cached sz :: (workerLoop statOk cacheHit false rest srcImg).images
          = List.map _ (sz :: rest)
      rw [List.map_cons, ih srcImg hsrc, if_pos hhit]
    · next hmiss =>
      match srcImg, hsrc with
      | none, _ =>
        show Thumb.placeholder sz :: (workerLoop statOk cacheHit false rest (some false)).images
            = List.map _ (sz :: rest)
        rw [List.map_cons, ih (some false) (by simp), if_neg hmiss]
      | some false, _ =>
        show Thumb.placeholder sz :: (workerLoop statOk cacheHit false rest (some false)).images
            = List.map _ (sz :: rest)
        rw [List.map_cons, ih (some false) (by simp), if_neg hmiss]

/-- C4 as the code has it: when decoding the source fails, every size that is
not served from the cache — the size whose miss triggered the failed decode
and every later miss — yields the solid-gray `size`×`size` placeholder, while
sizes found in the cache (before or after the failure) keep their cached
images; the worker returns a full result rather than raising. -/
theorem processImageWorker_decode_failure (statOk : Bool) (cacheHit : Nat → Bool)
    (thumbSizes : List Nat) :
    (processImageWorker statOk cacheHit false thumbSizes).images =
      thumbSizes.map (fun sz =>
        if statOk && cacheHit sz then Thumb.cached sz else Thumb.placeholder sz) :=
  workerLoop_decode_failed statOk cacheHit thumbSizes none (by simp)

/-- Counterexample to C4 as stated: sizes `[80, 150, 250]` with a cache hit at
80 and a failing decode at the 150 miss. The delivered set is not all
placeholders — the position-0 preview is the cached image for size 80. -/
theorem processImageWorker_decode_failure_cex :
    ((processImageWorker true (fun sz => sz == 80) false [80, 150, 250]).images.all
      Thumb.isPlaceholderImg) = false := by
  decide

/-! ### Worker Pool Scheduler sizing (`_load_images`)

`workers = max(1, (os.cpu_count() or 4) - 1)`. `os.cpu_count()` returns
`None` when the CPU count is undeterminable; Python `or` substitutes 4 for a
falsy left operand (`None`, and also `0`). -/

/-- Python `os.cpu_count() or 4`. -/
def cpuCountOrFour : Option Nat → Nat
  | none => 4
  | some n => if n = 0 then 4 else n

/-- Translation of `workers = max(1, (os.cpu_count() or 4) - 1)`. -/
def maxWorkers (cpuCount : Option Nat) : Nat :=
  max 1 (cpuCountOrFour cpuCount - 1)

/-- C9: for every available hardware parallelism value `n` (hardware reports
at least one CPU when it reports at all), the pool's concurrency limit is
`n - 1` floored at 1, that is `max 1 (n - 1)`. -/
theorem maxWorkers_eq (n : Nat) (h : 1 ≤ n) : maxWorkers (some n) = max 1 (n - 1) := by
  show max 1 ((if n = 0 then 4 else n) - 1) = max 1 (n - 1)
  rw [if_neg (by omega)]

/-- Concrete instantiation of `maxWorkers_eq` on a single-CPU machine. -/
theorem maxWorkers_eq_witness : maxWorkers (some 1) = max 1 (1 - 1) :=
  maxWorkers_eq 1 (by decide)

/-! ### Completion Poller (`_load_images`, `_cancel_loading`, `_poll_futures`)

The presentation-thread state touched by the polling loop: the `_loading`
flag, the `_load_cancelled` flag, the pending futures (as the submission
indices of the jobs whose futures are still registered, in submission
order — Python dict order), the `_results` slot array (`none` once dropped),
the `_completed_count` and `_total_count` counters, and the presentation
layer's `self.images` collection. Job results are kept abstract: `jobResult
i` is the value the future of the job submitted at index `i` delivers. -/

structure PollState (α : Type) where
  loading : Bool
  cancelled : Bool
  pending : List Nat
  results : Option (List (Option α))
  completed : Nat
  total : Nat
  images : List α
deriving DecidableEq, Repr

/-- State set up by `_load_images` after submitting `n` jobs: futures in
submission order, a pre-sized all-empty slot array, zeroed counters, a
cleared image collection. -/
def loadImagesInit (α : Type) (n : Nat) : PollState α :=
  ⟨true, false, List.range n, some (List.replicate n none), 0, n, []⟩

/-- Translation of `_cancel_loading`: sets the cancellation flag. -/
def cancelLoading {α : Type} (st : PollState α) : PollState α :=
  { st with cancelled := true }

/-- Translation of one `_poll_futures` tick, parametrised by the job results
and by which pending futures are observed done on this tick (`isDone`). A
tick does nothing when the poller is not scheduled. A cancelled tick cancels
and clears every pending future, clears the image collection, drops the slot
array and tears the session down. Otherwise the tick harvests at most 10 of
the done futures (in submission order), writes each result into the slot of
its submission index, pops the harvested futures, and bumps the completed
counter; when the completed count reaches the total, the slots are compacted
into `images` and the session is torn down. -/
def pollFutures {α : Type} (jobResult : Nat → α) (isDone : Nat → Bool)
    (st : PollState α) : PollState α :=
  if st.loading = true then
    if st.cancelled = true then
      ⟨false, true, [], none, st.completed, st.total, []⟩
    else
      match st.results with
      | none => st
      | some slots =>
        if st.total ≤ st.completed + ((st.pending.filter isDone).take 10).length then
          ⟨false, false, [], none,
            st.completed + ((st.pending.filter isDone).take 10).length, st.total,
            (((st.pending.filter isDone).take 10).foldl
              (fun r i => r.set i (some (jobResult i))) slots).reduceOption⟩
        else
          ⟨true, false,
            st.pending.filter (fun i => !decide (i ∈ (st.pending.filter isDone).take 10)),
            some (((st.pending.filter isDone).take 10).foldl
              (fun r i => r.set i (some (jobResult i))) slots),
            st.completed + ((st.pending.filter isDone).take 10).length, st.total, st.images⟩
  else st

/-- Repeated poll ticks: fold `pollFutures` over a completion schedule, one
`isDone` observation per tick. -/
def runPolls {α : Type} (jobResult : Nat → α) (schedule : List (Nat → Bool))
    (st : PollState α) : PollState α :=
  schedule.foldl (fun s d => pollFutures jobResult d s) st

/-- C6: a tick that observes the cancellation flag cancels and clears all
pending futures, clears the image collection, drops the results slot array,
delivers nothing, and tears the session down (`loading` becomes false). -/
theorem pollFutures_cancelled {α : Type} (jobResult : Nat → α) (isDone : Nat → Bool)
    (st : PollState α) (hload : st.loading = true) :
    pollFutures jobResult isDone (cancelLoading st) =
      ⟨false, true, [], none, st.completed, st.total, []⟩ := by
  simp [pollFutures, cancelLoading, hload]

/-- Concrete instantiation of `pollFutures_cancelled`: a three-job session
cancelled after one job completed. -/
theorem pollFutures_cancelled_witness :
    pollFutures (fun i => i) (fun _ => true)
        (cancelLoading (⟨true, false, [1, 2], some [some 0, none, none], 1, 3, []⟩ : PollState Nat)) =
      ⟨false, true, [], none, 1, 3, []⟩ :=
  pollFutures_cancelled (fun i => i) (fun _ => true)
    ⟨true, false, [1, 2], some [some 0, none, none], 1, 3, []⟩ rfl

/-- C8: one tick harvests at most a fixed batch of 10 finished jobs. On
every tick the completed counter grows by at most 10, and on a harvesting
tick (session loading, not cancelled, slot array present) it grows by
exactly the batch size `min 10 (number of finished pending futures)` — so
even when more than 10 futures have finished, exactly 10 are harvested. -/
theorem pollFutures_batch_bound {α : Type} (jobResult : Nat → α) (isDone : Nat → Bool)
    (st : PollState α) :
    (pollFutures jobResult isDone st).completed ≤ st.completed + 10 ∧
    (st.loading = true → st.cancelled = false → ∀ slots, st.results = some slots →
      (pollFutures jobResult isDone st).completed =
        st.completed + min 10 (st.pending.filter isDone).length) := by
  have hb : ((st.pending.filter isDone).take 10).length ≤ 10 := by
    rw [List.length_take]
    omega
  constructor
  · unfold pollFutures
    split
    · split
      · simp
      · split
        · simp
        · split
          · exact Nat.add_le_add_left hb st.completed
          · exact Nat.add_le_add_left hb st.completed
    · simp
  · intro hload hcanc slots hres
    have heq : pollFutures jobResult isDone st =
        (if st.total ≤ st.completed + ((st.pending.filter isDone).take 10).length then
          (⟨false, false, [], none,
            st.completed + ((st.pending.filter isDone).take 10).length, st.total,
            (((st.pending.filter isDone).take 10).foldl
              (fun r i => r.set i (some (jobResult i))) slots).reduceOption⟩ : PollState α)
        else
          ⟨true, false,
            st.pending.filter (fun i => !decide (i ∈ (st.pending.filter isDone).take 10)),
            some (((st.pending.filter isDone).take 10).foldl
              (fun r i => r.set i (some (jobResult i))) slots),
            st.completed + ((st.pending.filter isDone).take 10).length, st.total,
            st.images⟩) := by
      unfold pollFutures
      rw [if_pos hload, if_neg (by simp [hcanc]), hres]
    rw [heq]
    split
    · show st.completed + ((st.pending.filter isDone).take 10).length =
        st.completed + min 10 (st.pending.filter isDone).length
      rw [List.length_take]
    · show st.completed + ((st.pending.filter isDone).take 10).length =
        st.completed + min 10 (st.pending.filter isDone).length
      rw [List.length_take]

/-- Concrete instantiation of `pollFutures_batch_bound`: a tick on a session
of 12 jobs whose futures have all finished at once harvests exactly 10. -/
theorem pollFutures_batch_bound_witness :
    (pollFutures (fun i => i) (fun _ => true)
        (⟨true, false, List.range 12, some (List.replicate 12 none), 0, 12, []⟩ :
          PollState Nat)).completed = 10 :=
  ((pollFutures_batch_bound (fun i => i) (fun _ => true)
    ⟨true, false, List.range 12, some (List.replicate 12 none), 0, 12, []⟩).2
    rfl rfl (List.replicate 12 none) rfl).trans (by decide)

/-- Slot-array contents while loading: indices whose futures are still
pending hold `none`, harvested indices hold their job result. -/
def slotsSpec {α : Type} (jobResult : Nat → α) (n : Nat) (pending : List Nat) :
    List (Option α) :=
  (List.range n).map (fun i => if i ∈ pending then none else some (jobResult i))

/-- Invariant of the polling loop for an uncancelled session of `n` jobs. -/
def PollInv {α : Type} (jobResult : Nat → α) (n : Nat) (st : PollState α) : Prop :=
  st.cancelled = false ∧ st.total = n ∧
  (st.loading = true →
    st.results = some (slotsSpec jobResult n st.pending) ∧
    st.pending.Nodup ∧ (∀ i ∈ st.pending, i < n) ∧
    st.completed + st.pending.length = n ∧
    st.images = [] ∧ (n = 0 ∨ st.completed < n)) ∧
  (st.loading = false →
    st.completed = n → st.images = (List.range n).map jobResult)

theorem slotsSpec_set {α : Type} (jobResult : Nat → α) (n : Nat) (pending : List Nat)
    (b : Nat) (_hb : b < n) :
    (slotsSpec jobResult n pending).set b (some (jobResult b)) =
      slotsSpec jobResult n (pending.filter (fun i => !decide (i = b))) := by
  apply List.ext_getElem
  · simp [slotsSpec]
  · intro j h1 h2
    simp only [slotsSpec, List.length_map, List.length_range] at h1 h2 ⊢
    rw [List.getElem_set]
    simp only [List.getElem_map, List.getElem_range, List.mem_filter,
      Bool.not_eq_true', decide_eq_false_iff_not]
    by_cases hbj : b = j
    · subst hbj
      rw [if_pos rfl]
      rw [if_neg]
      intro hcon
      exact hcon.2 rfl
    · rw [if_neg hbj]
      by_cases hj : j ∈ pending
      · rw [if_pos hj, if_pos ⟨hj, fun hjb => hbj hjb.symm⟩]
      · rw [if_neg hj, if_neg (fun hcon => hj hcon.1)]

theorem foldl_set_slotsSpec {α : Type} (jobResult : Nat → α) (n : Nat) :
    ∀ (batch pending : List Nat), (∀ i ∈ batch, i < n) →
      batch.foldl (fun r i => r.set i (some (jobResult i))) (slotsSpec jobResult n pending) =
        slotsSpec jobResult n (pending.filter (fun i => !decide (i ∈ batch))) := by
  intro batch
  induction batch with
  | nil =>
    intro pending _
    simp
  | cons b bs ih =>
    intro pending hlt
    rw [List.foldl_cons, slotsSpec_set jobResult n pending b (hlt b (by simp)),
      ih _ (fun i hi => hlt i (by simp [hi]))]
    congr 1
    rw [List.filter_filter]
    refine List.filter_congr ?_
    intro x _
    simp [List.mem_cons, not_or, Bool.and_comm]

theorem filter_mem_of_sublist_nodup {l s : List Nat} (hsub : s.Sublist l) (hnd : l.Nodup) :
    l.filter (fun i => decide (i ∈ s)) = s := by
  induction hsub with
  | slnil => simp
  | @cons l₁ l₂ a h ih =>
    rw [List.nodup_cons] at hnd
    have hna : a ∉ l₁ := fun hc => hnd.1 (h.subset hc)
    rw [List.filter_cons, if_neg (by simpa using hna)]
    exact ih hnd.2
  | @cons₂ l₁ l₂ a h ih =>
    rw [List.nodup_cons] at hnd
    rw [List.filter_cons, if_pos (by simp)]
    have hcongr : l₂.filter (fun i => decide (i ∈ a :: l₁)) =
        l₂.filter (fun i => decide (i ∈ l₁)) := by
      refine List.filter_congr ?_
      intro x hx
      have hxa : x ≠ a := fun hxe => hnd.1 (hxe ▸ hx)
      simp [List.mem_cons, hxa]
    rw [hcongr, ih hnd.2]

theorem slotsSpec_nil_reduceOption {α : Type} (jobResult : Nat → α) (n : Nat) :
    (slotsSpec jobResult n []).reduceOption = (List.range n).map jobResult := by
  unfold slotsSpec
  simp only [List.not_mem_nil, if_false]
  rw [List.reduceOption, List.filterMap_map]
  show List.filterMap (some ∘ jobResult) (List.range n) = List.map jobResult (List.range n)
  rw [List.filterMap_eq_map]

theorem pollInv_init {α : Type} (jobResult : Nat → α) (n : Nat) :
    PollInv jobResult n (loadImagesInit α n) := by
  refine ⟨rfl, rfl, fun _ => ?_, fun h => by simp [loadImagesInit] at h⟩
  refine ⟨?_, ?_, ?_, ?_, rfl, ?_⟩
  · show some (List.replicate n none) = some (slotsSpec jobResult n (List.range n))
    congr 1
    apply List.ext_getElem
    · simp [slotsSpec]
    · intro j h1 h2
      simp only [List.length_replicate] at h1
      simp [slotsSpec, List.mem_range, h1]
  · show (List.range n).Nodup
    exact List.nodup_range n
  · show ∀ i ∈ List.range n, i < n
    exact fun i hi => List.mem_range.mp hi
  · show 0 + (List.range n).length = n
    simp
  · show n = 0 ∨ 0 < n
    omega

theorem pollInv_step {α : Type} (jobResult : Nat → α) (n : Nat) (st : PollState α)
    (d : Nat → Bool) (hinv : PollInv jobResult n st) :
    PollInv jobResult n (pollFutures jobResult d st) := by
  obtain ⟨hcanc, htot, hload_side, hdone_side⟩ := hinv
  by_cases hload : st.loading = true
  · obtain ⟨hres, hnd, hmem, hcount, himg, hlt⟩ := hload_side hload
    have hstep : pollFutures jobResult d st =
        (if st.total ≤ st.completed + ((st.pending.filter d).take 10).length then
          (⟨false, false, [], none,
            st.completed + ((st.pending.filter d).take 10).length, st.total,
            (((st.pending.filter d).take 10).foldl
              (fun r i => r.set i (some (jobResult i)))
              (slotsSpec jobResult n st.pending)).reduceOption⟩ : PollState α)
        else
          ⟨true, false,
            st.pending.filter (fun i => !decide (i ∈ (st.pending.filter d).take 10)),
            some (((st.pending.filter d).take 10).foldl
              (fun r i => r.set i (some (jobResult i))) (slotsSpec jobResult n st.pending)),
            st.completed + ((st.pending.filter d).take 10).length, st.total, st.images⟩) := by
      unfold pollFutures
      rw [if_pos hload, if_neg (by simp [hcanc]), hres]
    have hbsub : ((st.pending.filter d).take 10).Sublist st.pending :=
      (List.take_sublist _ _).trans (List.filter_sublist _)
    have hblen : ((st.pending.filter d).take 10).length ≤ st.pending.length :=
      hbsub.length_le
    have hbmem : ∀ i ∈ (st.pending.filter d).take 10, i < n :=
      fun i hi => hmem i (hbsub.subset hi)
    have hfold := foldl_set_slotsSpec jobResult n ((st.pending.filter d).take 10)
      st.pending hbmem
    rw [hstep]
    split
    · next hdone =>
      refine ⟨rfl, htot, fun h => by simp at h, fun _ hcomp => ?_⟩
      show (((st.pending.filter d).take 10).foldl
        (fun r i => r.set i (some (jobResult i)))
          (slotsSpec jobResult n st.pending)).reduceOption = (List.range n).map jobResult
      have hbeq : (st.pending.filter d).take 10 = st.pending :=
        hbsub.eq_of_length (by omega)
      have hnil : st.pending.filter
          (fun i => !decide (i ∈ (st.pending.filter d).take 10)) = [] := by
        rw [List.filter_eq_nil_iff]
        intro i hi
        simp [hbeq, hi]
      rw [hfold, hnil, slotsSpec_nil_reduceOption]
    · next hnotdone =>
      refine ⟨rfl, htot, fun _ => ?_, fun h => by simp at h⟩
      have hpart : st.pending.filter (fun i => decide (i ∈ (st.pending.filter d).take 10)) =
          (st.pending.filter d).take 10 :=
        filter_mem_of_sublist_nodup hbsub hnd
      have hlen2 : (st.pending.filter (fun i => decide (i ∈ (st.pending.filter d).take 10))).length
            + (st.pending.filter (fun i => !decide (i ∈ (st.pending.filter d).take 10))).length
          = st.pending.length := by
        have hperm := List.filter_append_perm
          (fun i => decide (i ∈ (st.pending.filter d).take 10)) st.pending
        have hlen := hperm.length_eq
        simpa using hlen
      rw [hpart] at hlen2
      refine ⟨by rw [hfold], hnd.filter _,
        fun i hi => hmem i ((List.filter_sublist _).subset hi),
        by simp only; omega, himg, Or.inr (by simp only; omega)⟩
  · have hid : pollFutures jobResult d st = st := by
      unfold pollFutures
      rw [if_neg hload]
    rw [hid]
    exact ⟨hcanc, htot, hload_side, hdone_side⟩

theorem pollInv_run {α : Type} (jobResult : Nat → α) (n : Nat)
    (schedule : List (Nat → Bool)) (st : PollState α) (hinv : PollInv jobResult n st) :
    PollInv jobResult n (runPolls jobResult schedule st) := by
  induction schedule generalizing st with
  | nil => exact hinv
  | cons d ds ih => exact ih _ (pollInv_step jobResult n st d hinv)

/-- C1: order preservation. For any number of submitted jobs and any
completion schedule, once the completed count reaches the total count the
delivered image list holds the result of the job submitted at index `i` at
position `i` — it equals `[jobResult 0, …, jobResult (n-1)]` regardless of
the order in which futures finished. -/
theorem pollFutures_order_preserved {α : Type} (jobResult : Nat → α) (n : Nat)
    (schedule : List (Nat → Bool))
    (hdone : (runPolls jobResult schedule (loadImagesInit α n)).completed =
      (runPolls jobResult schedule (loadImagesInit α n)).total) :
    (runPolls jobResult schedule (loadImagesInit α n)).images =
      (List.range n).map jobResult := by
  obtain ⟨hcanc, htot, hload_side, hdone_side⟩ :=
    pollInv_run jobResult n schedule _ (pollInv_init jobResult n)
  rw [htot] at hdone
  by_cases hload : (runPolls jobResult schedule (loadImagesInit α n)).loading = true
  · obtain ⟨_, _, _, hcount, himg, hlt⟩ := hload_side hload
    rcases hlt with h0 | hlt
    · subst h0
      simp [himg]
    · omega
  · rw [Bool.not_eq_true] at hload
    exact hdone_side hload hdone

/-- Concrete instantiation of `pollFutures_order_preserved`: three jobs whose
futures complete out of order (job 2 first, then jobs 0 and 1) still deliver
`[jobResult 0, jobResult 1, jobResult 2]`. -/
theorem pollFutures_order_preserved_witness :
    (runPolls (fun i => i * 10) [fun i => i == 2, fun _ => true]
        (loadImagesInit Nat 3)).images = [0, 10, 20] :=
  (pollFutures_order_preserved (fun i => i * 10) 3 [fun i => i == 2, fun _ => true]
    (by decide)).trans (by decide)

end PixSort
